import Mathlib

/-!
Verification development for the monochrome text-rendering core of the
`vitex` repository (`src/backends/freetype.py`).

The Python source is shallowly embedded below:
* `Bitmap`, `Glyph`, and the `Font` operations (`kerning_offset`,
  `text_dimensions`, `render_text`) are translated definition by definition;
* numpy boolean buffers become `List Bool`; Python slice semantics
  (negative indices, clamping, broadcast on in-place `|=`) are modelled by
  `pyIndex`, `pySlice` and `sliceOrAssign`;
* Python's `//` (floor division) becomes `Int.fdiv`;
* the external FreeType face is an abstract `FontFace` record supplying the
  rasterized glyph for a character and the raw 26.6 fixed-point kerning
  vector for a pair of characters (the code may pass `none` as the first
  component of the pair, so the oracle takes an `Option Char`);
* `functools.lru_cache` (default `maxsize=128`) is modelled by `lruCall`
  over an explicit association-list state ordered most-recently-used first.
-/

namespace Vitex

/-- Python index normalisation for slice bounds on a sequence of length
`len`: a negative index has `len` added to it, then the result is clamped
into `[0, len]` (`Int.toNat` clamps negatives to `0`). -/
def pyIndex (len : Nat) (i : Int) : Nat :=
  min (if i < 0 then i + len else i).toNat len

/-- Python slice read `l[i : j]`. -/
def pySlice (l : List Bool) (i j : Int) : List Bool :=
  let a := pyIndex l.length i
  let b := pyIndex l.length j
  (l.drop a).take (b - a)

/-- numpy in-place `dst[i : j] |= src` on 1-D boolean arrays.  The slice is
resolved with Python semantics; the assignment succeeds when the slice
length equals `src`'s length, or when `src` has length 1 (numpy broadcasts
a size-1 array to any slice length); any other mismatch raises, which we
model as `none`. -/
def sliceOrAssign (dst : List Bool) (i j : Int) (src : List Bool) : Option (List Bool) :=
  let a := pyIndex dst.length i
  let b := pyIndex dst.length j
  let k := b - a
  if k = src.length then
    some (dst.take a ++ List.zipWith or ((dst.drop a).take k) src ++ dst.drop (a + k))
  else if src.length = 1 then
    some (dst.take a ++ ((dst.drop a).take k).map (fun p => p || src.getD 0 false) ++ dst.drop (a + k))
  else
    none

/-- `class Bitmap`: a 2D bitmap as a flat row-major boolean buffer.
The Python constructor stores `width` and `height` unchecked. -/
structure Bitmap where
  width : Int
  height : Int
  pixels : List Bool
  deriving Repr, DecidableEq

/-- `Bitmap.__init__` with `pixels=None`: allocates
`np.zeros(width * height, dtype='bool')`.  numpy raises (a generic
`ValueError`, not any engine-specific error) when the requested size
`width * height` is negative; otherwise the buffer has
`(width * height).toNat` cells, all `false`.  No validation of `width` or
`height` themselves is performed. -/
def Bitmap.init (width height : Int) : Option Bitmap :=
  if width * height < 0 then none
  else some ⟨width, height, List.replicate (width * height).toNat false⟩

/-- The row loop of `Bitmap.bitblt`: for `sy in range(src.height)` perform
`self.pixels[dstpixel : dstpixel + srcw] |= src.pixels[srcpixel : srcpixel + srcw]`,
then `srcpixel += srcw; dstpixel += row_offset + srcw`.
`rows` is the Python `range` bound already clamped at 0. -/
def bitbltLoop (dstw srcw : Int) (srcPixels : List Bool) :
    Nat → Int → Int → List Bool → Option (List Bool)
  | 0, _, _, pixels => some pixels
  | rows + 1, srcpixel, dstpixel, pixels =>
    match sliceOrAssign pixels dstpixel (dstpixel + srcw)
        (pySlice srcPixels srcpixel (srcpixel + srcw)) with
    | none => none
    | some pixels' =>
      bitbltLoop dstw srcw srcPixels rows (srcpixel + srcw)
        (dstpixel + (dstw - srcw) + srcw) pixels'

/-- `Bitmap.bitblt(self, src, x, y)`: copy all pixels from `src` into this
bitmap, OR-combining with the existing contents row by row.  In Python a
shape-mismatched in-place `|=` raises; this is the `none` outcome. -/
def Bitmap.bitblt (self src : Bitmap) (x y : Int) : Option Bitmap :=
  match bitbltLoop self.width src.width src.pixels src.height.toNat
      0 (y * self.width + x) self.pixels with
  | none => none
  | some px => some ⟨self.width, self.height, px⟩

/-- `class Glyph`: the unpacked pixels together with the metrics passed to
`Glyph.__init__`.  The Python constructor stores `width = bitmap.width` and
`height = bitmap.height` and derives `descent` and `ascent` from `top` and
`height`; since the object is immutable after construction we expose the
derived metrics as functions of the stored fields. -/
structure Glyph where
  pixels : List Bool
  width : Int
  height : Int
  top : Int
  advance_width : Int
  deriving Repr, DecidableEq

/-- `self.bitmap = Bitmap(width, height, pixels)` from `Glyph.__init__`. -/
def Glyph.bitmap (g : Glyph) : Bitmap :=
  ⟨g.width, g.height, g.pixels⟩

/-- `self.descent = max(0, self.height - self.top)` from `Glyph.__init__`. -/
def Glyph.descent (g : Glyph) : Int :=
  max 0 (g.height - g.top)

/-- `self.ascent = max(0, max(self.top, self.height) - self.descent)` from
`Glyph.__init__`. -/
def Glyph.ascent (g : Glyph) : Int :=
  max 0 (max g.top g.height - g.descent)

/-- Innermost loop of `Glyph.unpack_mono_bitmap`: for
`bit_index in range(min(8, width - num_bits_done))` write
`data[rowstart + bit_index] = 1 if byte_value & (1 << (7 - bit_index)) else 0`.
Python's `min(8, width - num_bits_done)` is negative (empty range) when
`num_bits_done > width`; Nat subtraction models this by truncating at 0. -/
def unpackBits (byte_value rowstart nbits : Nat) (data : List Bool) : List Bool :=
  (List.range nbits).foldl
    (fun d bit_index => d.set (rowstart + bit_index)
      (byte_value &&& (1 <<< (7 - bit_index)) != 0)) data

/-- Middle loop of `Glyph.unpack_mono_bitmap`: for
`byte_index in range(pitch)` read
`byte_value = buffer[y * pitch + byte_index]` and unpack its bits at
`rowstart = y * width + byte_index * 8`.  List reads use `getD _ 0`; under
the wellformedness hypothesis `buffer.length = rows * pitch` every read is
in range, matching the Python indexing. -/
def unpackRowAux (buffer : List Nat) (width pitch y : Nat) (p : Nat) (data : List Bool) :
    List Bool :=
  (List.range p).foldl
    (fun d byte_index =>
      let byte_value := buffer.getD (y * pitch + byte_index) 0
      let num_bits_done := byte_index * 8
      let rowstart := y * width + byte_index * 8
      unpackBits byte_value rowstart (min 8 (width - num_bits_done)) d) data

/-- The middle loop runs over `range(pitch)`. -/
def unpackRow (buffer : List Nat) (width pitch y : Nat) (data : List Bool) : List Bool :=
  unpackRowAux buffer width pitch y pitch data

/-- The outer loop of `Glyph.unpack_mono_bitmap` over `range(bitmap.rows)`,
with the loop bound `r` as an explicit parameter. -/
def unpackRowsAux (buffer : List Nat) (width pitch : Nat) (r : Nat) (data : List Bool) :
    List Bool :=
  (List.range r).foldl (fun data y => unpackRow buffer width pitch y data) data

/-- `Glyph.unpack_mono_bitmap(bitmap)`: allocate
`data = bytearray(bitmap.rows * bitmap.width)` and run the nested loops
over `range(bitmap.rows)` and `range(bitmap.pitch)`; the final
`np.array(data, dtype='bool')` is modelled by storing booleans directly. -/
def unpack_mono_bitmap (buffer : List Nat) (rows width pitch : Nat) : List Bool :=
  unpackRowsAux buffer width pitch rows (List.replicate (rows * width) false)

/-- `Glyph.from_glyphslot(slot)`: unpack the packed mono bitmap and build a
`Glyph`; `advance_width = slot.advance.x // 64` (Python floor division of
the 26.6 fixed-point advance). -/
def Glyph.from_glyphslot (slotBuffer : List Nat) (slotRows slotWidth slotPitch : Nat)
    (slotBitmapTop slotAdvanceX : Int) : Glyph :=
  { pixels := unpack_mono_bitmap slotBuffer slotRows slotWidth slotPitch
    width := slotWidth
    height := slotRows
    top := slotBitmapTop
    advance_width := Int.fdiv slotAdvanceX 64 }

/-- The external FreeType face as seen by `class Font`: a deterministic
rasterizer (`load_char` + `Glyph.from_glyphslot`) and the raw kerning query
`face.get_kerning(previous_char, char).x` in 26.6 fixed-point units.  The
Python code passes `previous_char = None` straight to `get_kerning`, so the
oracle's first argument is an `Option Char`. -/
structure FontFace where
  rasterize : Char → Glyph
  getKerning : Option Char → Char → Int

/-- `Font.kerning_offset(self, previous_char, char)`:
`kerning = self.face.get_kerning(previous_char, char)` followed by
`return kerning.x // 64` (floor division).  There is no special case for
`previous_char = None`: the value is passed through to the face. -/
def Font.kerning_offset (f : FontFace) (previous_char : Option Char) (char : Char) : Int :=
  Int.fdiv (f.getKerning previous_char char) 64

/-- Association-list lookup used by the `lru_cache` model (keys compared
with decidable equality, mirroring dict key lookup). -/
def lruFind {α : Type} (cache : List (Char × α)) (k : Char) : Option α :=
  match cache with
  | [] => none
  | (k', v) :: rest => if k' = k then some v else lruFind rest k

/-- Remove the entry with key `k` (used when a cache hit moves the entry to
the most-recently-used position). -/
def lruErase {α : Type} (cache : List (Char × α)) (k : Char) : List (Char × α) :=
  match cache with
  | [] => []
  | (k', v) :: rest => if k' = k then lruErase rest k else (k', v) :: lruErase rest k

/-- `functools.lru_cache(maxsize)` around a unary function `f`, as an
explicit state transformer.  The cache list is ordered most-recently-used
first.  On a hit the entry moves to the front and `f` is not invoked; on a
miss `f` is invoked and the new entry is inserted in front, evicting the
least-recently-used (last) entry when the cache is full.  The returned
`Bool` records whether `f` was invoked. -/
def lruCall {α : Type} (f : Char → α) (maxsize : Nat) (cache : List (Char × α))
    (k : Char) : α × List (Char × α) × Bool :=
  match lruFind cache k with
  | some v => (v, (k, v) :: lruErase cache k, false)
  | none =>
    let v := f k
    if maxsize ≤ cache.length then (v, (k, v) :: cache.dropLast, true)
    else (v, (k, v) :: cache, true)

/-- `Font.glyph_for_character`, decorated with bare `@lru_cache` whose
default capacity is 128: look the character up in the cache, rasterizing
through the face only on a miss. -/
def Font.glyph_for_character (f : FontFace) (cache : List (Char × Glyph)) (char : Char) :
    Glyph × List (Char × Glyph) × Bool :=
  lruCall f.rasterize 128 cache char

/-- Process a sequence of `glyph_for_character` calls, returning the final
cache state. -/
def Font.runGlyphCalls (f : FontFace) (cs : List Char) (cache : List (Char × Glyph)) :
    List (Char × Glyph) :=
  cs.foldl (fun cache c => (Font.glyph_for_character f cache c).2.1) cache

/-- The loop body of `Font.text_dimensions`: iterate the `(char, glyph)`
pairs carrying `width`, `max_ascent`, `max_descent` and `previous_char`;
finally `height = max_ascent + max_descent` and the returned triple is
`(width, height, max_descent)`.  (`Font._max` is a memoized `max`; the
memoization of an arithmetic function is semantically transparent, so it is
embedded as `max`.) -/
def text_dimensions_loop (f : FontFace) :
    List (Char × Glyph) → Int → Int → Int → Option Char → Int × Int × Int
  | [], width, max_ascent, max_descent, _ =>
    (width, max_ascent + max_descent, max_descent)
  | (char, glyph) :: rest, width, max_ascent, max_descent, previous_char =>
    let kerning_x := Font.kerning_offset f previous_char char
    text_dimensions_loop f rest
      (width + max (glyph.advance_width + kerning_x) (glyph.width + kerning_x))
      (max max_ascent glyph.ascent)
      (max max_descent glyph.descent)
      (some char)

/-- `Font.text_dimensions(self, text, glyphs)`: assert the two sequences
have equal length (`none` models the Python `AssertionError`), then run the
loop over `zip(text, glyphs)` starting from
`width = 0, max_ascent = 0, max_descent = 0, previous_char = None`. -/
def Font.text_dimensions (f : FontFace) (text : List Char) (glyphs : List Glyph) :
    Option (Int × Int × Int) :=
  if text.length = glyphs.length then
    some (text_dimensions_loop f (text.zip glyphs) 0 0 0 none)
  else none

/-- The rendering loop of `Font.render_text`: walk the `(char, glyph)`
pairs maintaining the cursor `x` and `previous_char`;
`x += kerning_offset(previous_char, char)`;
`y = height - glyph.ascent - baseline`; blit; `x += glyph.advance_width`. -/
def render_loop (f : FontFace) (height baseline : Int) :
    List (Char × Glyph) → Int → Option Char → Bitmap → Option Bitmap
  | [], _, _, outbuffer => some outbuffer
  | (char, glyph) :: rest, x, previous_char, outbuffer =>
    let x' := x + Font.kerning_offset f previous_char char
    let y := height - glyph.ascent - baseline
    match outbuffer.bitblt glyph.bitmap x' y with
    | none => none
    | some outbuffer' =>
      render_loop f height baseline rest (x' + glyph.advance_width) (some char) outbuffer'

/-- `Font.render_text(self, text, height=None)`: rasterize each character
(the `lru_cache` on `glyph_for_character` is semantically transparent for a
deterministic face, so the glyph list is `text.map f.rasterize`), compute
the dimensions, allocate `Bitmap(width, height)` and blit every glyph.
`none` models any raised Python exception along the way. -/
def Font.render_text (f : FontFace) (text : List Char) (heightArg : Option Int) :
    Option Bitmap :=
  let glyphs := text.map f.rasterize
  match Font.text_dimensions f text glyphs with
  | none => none
  | some (width, naturalHeight, baseline) =>
    let height := match heightArg with
      | none => naturalHeight
      | some h => h
    match Bitmap.init width height with
    | none => none
    | some outbuffer =>
      render_loop f height baseline (text.zip glyphs) 0 none outbuffer

/-! ## Concrete instances used by witnesses and counterexamples -/

/-- A 1×1 glyph (single `on` pixel) with `top = 2` and `advance_width = 3`;
its derived metrics are `ascent = 2`, `descent = 0`. -/
def glyphWrap : Glyph :=
  { pixels := [true], width := 1, height := 1, top := 2, advance_width := 3 }

/-- A face whose every character rasterizes to `glyphWrap`, with zero
kerning. -/
def faceWrap : FontFace :=
  ⟨fun _ => glyphWrap, fun _ _ => 0⟩

/-- A 2×1 glyph (two `on` pixels) with `top = 2` and `advance_width = 2`;
its derived metrics are `ascent = 2`, `descent = 0`. -/
def glyphErr : Glyph :=
  { pixels := [true, true], width := 2, height := 1, top := 2, advance_width := 2 }

/-- A face whose every character rasterizes to `glyphErr`, with zero
kerning. -/
def faceErr : FontFace :=
  ⟨fun _ => glyphErr, fun _ _ => 0⟩

/-- A face with trivial glyphs used to exercise the glyph cache. -/
def faceCache : FontFace :=
  ⟨fun c => ⟨[], 0, 0, 0, (c.toNat : Int)⟩, fun _ _ => 0⟩

/-- 128 pairwise distinct characters (`U+0064` … `U+00E3`), none equal to
`'c'` (`U+0063`). -/
def interveningChars : List Char :=
  (List.range 128).map (fun i => Char.ofNat (100 + i))

/-- Glyph "A" of the spec's concrete layout scenario: `advance_width = 10`,
bitmap width 12. -/
def glyphA : Glyph :=
  { pixels := [], width := 12, height := 10, top := 10, advance_width := 10 }

/-- Glyph "V" of the spec's concrete layout scenario: `advance_width = 8`,
bitmap width 10. -/
def glyphV : Glyph :=
  { pixels := [], width := 10, height := 10, top := 10, advance_width := 8 }

/-- Face for the "AV" scenario: the raw kerning after `'A'` is `-128`
fixed-point units, i.e. `-2` pixels after floor division by 64. -/
def faceAV : FontFace :=
  ⟨fun c => if c = 'A' then glyphA else glyphV,
   fun p _ => if p = some 'A' then -128 else 0⟩

/-! ## C3: glyph vertical metrics -/

/-- **C3.** For every constructed glyph, the vertical metrics are derived
deterministically from `top` (the top bearing) and `height`:
`descent = max(0, height - top)` and
`ascent = max(0, max(top, height) - descent)`, and therefore both are
non-negative. -/
theorem C3_glyph_metrics (g : Glyph) :
    g.descent = max 0 (g.height - g.top) ∧
    g.ascent = max 0 (max g.top g.height - max 0 (g.height - g.top)) ∧
    0 ≤ g.ascent ∧ 0 ≤ g.descent :=
  ⟨rfl, rfl, le_max_left _ _, le_max_left _ _⟩

/-! ## C4: 26.6 fixed-point conversion by floor division -/

/-- **C4.** Advance widths (`Glyph.from_glyphslot`) and kerning values
(`Font.kerning_offset`) reported in 1/64-pixel fixed-point units are
converted to whole pixels by floor division by 64: the result `q`
satisfies `64*q ≤ v < 64*q + 64`, so the fractional part is discarded
toward negative infinity; in particular `-65` units become `-2` pixels
(rounding to nearest would give `-1`). -/
theorem C4_fixed_point_floor_division :
    (∀ buf rows w p top adv,
      (Glyph.from_glyphslot buf rows w p top adv).advance_width = Int.fdiv adv 64) ∧
    (∀ (f : FontFace) pc c,
      Font.kerning_offset f pc c = Int.fdiv (f.getKerning pc c) 64) ∧
    (∀ v : Int, 64 * Int.fdiv v 64 ≤ v ∧ v < 64 * Int.fdiv v 64 + 64) ∧
    Int.fdiv (-65) 64 = -2 ∧ Int.fdiv (-65) 64 ≠ -1 := by
  refine ⟨fun _ _ _ _ _ _ => rfl, fun _ _ _ => rfl, fun v => ?_, by decide, by decide⟩
  rw [Int.fdiv_eq_ediv v (by decide : (0:Int) ≤ 64)]
  constructor <;> omega

/-! ## C9: PixelCanvas construction -/

/-- **C9 counterexample.** The claim says creating a canvas with
`width < 0` or `height < 0` fails with an `InvalidDimension` error.  The
code performs no such validation: `Bitmap(-1, -1)` succeeds (numpy
allocates `(-1) * (-1) = 1` cell), returning a bitmap rather than any
error. -/
theorem C9_counterexample :
    Bitmap.init (-1) (-1) = some ⟨-1, -1, [false]⟩ ∧ (-1 : Int) < 0 := by
  decide

/-- **C9 amended.** For `width ≥ 0` and `height ≥ 0`, `Bitmap.init`
returns a buffer of exactly `width * height` pixels, all `false`.
Negative dimensions are not specially validated: construction fails (with
numpy's generic negative-size error, not an `InvalidDimension` error) only
when the product `width * height` is negative. -/
theorem C9_amended (w h : Int) (hw : 0 ≤ w) (hh : 0 ≤ h) :
    Bitmap.init w h = some ⟨w, h, List.replicate (w * h).toNat false⟩ ∧
    (List.replicate (w * h).toNat false).length = (w * h).toNat ∧
    (∀ p ∈ List.replicate (w * h).toNat false, p = false) ∧
    (∀ w' h' : Int, w' * h' < 0 → Bitmap.init w' h' = none) := by
  refine ⟨?_, List.length_replicate _ _, fun p hp => List.eq_of_mem_replicate hp,
    fun w' h' hneg => ?_⟩
  · have : ¬ w * h < 0 := not_lt.2 (mul_nonneg hw hh)
    simp [Bitmap.init, this]
  · simp [Bitmap.init, hneg]

/-- **C9 witness.** The amended theorem applied at `width = 2`,
`height = 3`. -/
theorem C9_witness :
    Bitmap.init 2 3 = some ⟨2, 3, List.replicate ((2 : Int) * 3).toNat false⟩ :=
  (C9_amended 2 3 (by decide) (by decide)).1

/-! ## C7: kerning for a missing previous character -/

/-- **C7 counterexample.** The claim says the kerning offset for the pair
`(none, c)` is 0 and that `none` is handled by the caching layer, never
passed to the external kerning query.  In the code `kerning_offset` has no
`None` check: it calls `face.get_kerning(previous_char, char)` with the
`none` value, so the result is whatever the external face reports.  For a
face whose raw kerning query answers 64 fixed-point units, the offset for
`(none, 'A')` is 1, not 0. -/
theorem C7_counterexample :
    Font.kerning_offset ⟨fun _ => ⟨[], 0, 0, 0, 0⟩, fun _ _ => 64⟩ none 'A' = 1 ∧
    (1 : Int) ≠ 0 := by
  decide

/-- **C7 amended.** `kerning_offset` does not special-case `none`: for
every face it returns the floor division by 64 of the external query's
answer for the pair as given, `none` included.  Consequently the offset
for `(none, c)` is 0 exactly when the external face reports a value in
`[0, 64)` for that pair (e.g. 0, as real FreeType does for the glyph index
that `None` coerces to). -/
theorem C7_amended (f : FontFace) (pc : Option Char) (c : Char) :
    Font.kerning_offset f pc c = Int.fdiv (f.getKerning pc c) 64 ∧
    (0 ≤ f.getKerning none c → f.getKerning none c < 64 →
      Font.kerning_offset f none c = 0) := by
  refine ⟨rfl, fun h0 h64 => ?_⟩
  unfold Font.kerning_offset
  rw [Int.fdiv_eq_ediv _ (by decide : (0:Int) ≤ 64)]
  omega

/-- **C7 witness.** The amended theorem applied to `faceWrap` (whose raw
kerning query always answers 0) at the pair `(none, 'A')`. -/
theorem C7_witness : Font.kerning_offset faceWrap none 'A' = 0 :=
  (C7_amended faceWrap none 'A').2 (by decide) (by decide)

/-! ## C8: glyph caching -/

set_option maxRecDepth 8000 in
/-- **C8 counterexample.** The claim says a repeat `glyph_for_character`
call never re-invokes the rasterizer "regardless of how many distinct
characters have been queried in between (the cache is unbounded with no
eviction)".  The code uses a bare `@lru_cache`, whose default capacity is
128: after querying `'c'` and then 128 distinct other characters, the
entry for `'c'` has been evicted and the next call for `'c'` re-invokes
the rasterizer (the returned invocation flag is `true`). -/
theorem C8_counterexample :
    (Font.glyph_for_character faceCache
      (Font.runGlyphCalls faceCache interveningChars
        (Font.runGlyphCalls faceCache [Char.ofNat 99] []))
      (Char.ofNat 99)).2.2 = true := by
  decide

/-- **C8 amended.** `glyph_for_character` is memoized by an LRU cache of
capacity 128, not an unbounded one.  As long as the entry is not evicted
the claimed behaviour holds; in particular an immediately repeated call
returns the bit-identical glyph without re-invoking the rasterizer, and a
first call on an empty cache does invoke it. -/
theorem C8_amended (f : FontFace) (cache : List (Char × Glyph)) (c : Char) :
    ((Font.glyph_for_character f
        (Font.glyph_for_character f cache c).2.1 c).1 =
      (Font.glyph_for_character f cache c).1) ∧
    (Font.glyph_for_character f
        (Font.glyph_for_character f cache c).2.1 c).2.2 = false ∧
    (Font.glyph_for_character f [] c).2.2 = true := by
  unfold Font.glyph_for_character lruCall
  cases h : lruFind cache c with
  | some v => simp [h, lruFind]
  | none =>
    by_cases hlen : 128 ≤ cache.length <;> simp [h, hlen, lruFind]

/-! ## C1: layout dimensions -/

/-- Claim-side width formula: the sum over the character/glyph pairs, taken
left to right with the previous character tracked, of
`max(advance_width + k, width + k)` where `k` is the kerning offset for
`(previous_char, char)`. -/
def specWidth (f : FontFace) : Option Char → List (Char × Glyph) → Int
  | _, [] => 0
  | prev, (c, g) :: rest =>
    let k := Font.kerning_offset f prev c
    max (g.advance_width + k) (g.width + k) + specWidth f (some c) rest

/-- Claim-side maximum ascent over a glyph sequence (0 for the empty
sequence). -/
def specMaxAscent (gs : List Glyph) : Int :=
  gs.foldr (fun g m => max g.ascent m) 0

/-- Claim-side maximum descent over a glyph sequence (0 for the empty
sequence). -/
def specMaxDescent (gs : List Glyph) : Int :=
  gs.foldr (fun g m => max g.descent m) 0

theorem text_dimensions_loop_spec (f : FontFace) :
    ∀ (pairs : List (Char × Glyph)) (w a d : Int) (p : Option Char),
    text_dimensions_loop f pairs w a d p =
      (w + specWidth f p pairs,
       pairs.foldl (fun m cg => max m cg.2.ascent) a +
         pairs.foldl (fun m cg => max m cg.2.descent) d,
       pairs.foldl (fun m cg => max m cg.2.descent) d) := by
  intro pairs
  induction pairs with
  | nil => intro w a d p; simp [text_dimensions_loop, specWidth]
  | cons cg rest ih =>
    intro w a d p
    obtain ⟨c, g⟩ := cg
    simp only [text_dimensions_loop, specWidth, List.foldl_cons]
    rw [ih]
    refine congrArg (fun t => (t, _)) ?_
    ring

theorem foldl_max_le (key : Glyph → Int) :
    ∀ (gs : List Glyph) (a : Int), a ≤ gs.foldl (fun m g => max m (key g)) a := by
  intro gs
  induction gs with
  | nil => intro a; simp
  | cons g rest ih =>
    intro a
    exact le_trans (le_max_left a (key g)) (ih (max a (key g)))

theorem le_foldl_max_of_mem (key : Glyph → Int) :
    ∀ (gs : List Glyph) (a : Int) {g : Glyph}, g ∈ gs →
      key g ≤ gs.foldl (fun m g => max m (key g)) a := by
  intro gs
  induction gs with
  | nil => intro a g hg; cases hg
  | cons g' rest ih =>
    intro a g hg
    rcases List.mem_cons.1 hg with h | h
    · subst h
      exact le_trans (le_max_right a (key g)) (foldl_max_le key rest _)
    · exact ih _ h

theorem foldl_foldr_max (key : Glyph → Int) :
    ∀ (gs : List Glyph) (a : Int), 0 ≤ a →
      gs.foldl (fun m g => max m (key g)) a =
        max a (gs.foldr (fun g m => max (key g) m) 0) := by
  intro gs
  induction gs with
  | nil => intro a ha; simpa using (max_eq_left ha).symm
  | cons g rest ih =>
    intro a ha
    simp only [List.foldl_cons, List.foldr_cons]
    rw [ih _ (le_trans ha (le_max_left a (key g)))]
    rw [max_assoc]

theorem foldr_max_nonneg (key : Glyph → Int) (gs : List Glyph) :
    0 ≤ gs.foldr (fun g m => max (key g) m) 0 := by
  induction gs with
  | nil => simp
  | cons g rest ih => exact le_trans ih (le_max_right _ _)

/-- **C1.** For every text and glyph sequence of equal length,
`text_dimensions` returns the width given by the left-to-right kerned sum
of `max(advance_width + k, width + k)`, the height
`max ascent + max descent`, and the baseline `max descent` (all maxima over
the glyph sequence, 0 for the empty sequence, so the empty text yields
`(0, 0, 0)`). -/
theorem C1_text_dimensions (f : FontFace) (text : List Char) (glyphs : List Glyph)
    (h : text.length = glyphs.length) :
    Font.text_dimensions f text glyphs =
      some (specWidth f none (text.zip glyphs),
            specMaxAscent glyphs + specMaxDescent glyphs,
            specMaxDescent glyphs) := by
  unfold Font.text_dimensions
  rw [if_pos h, text_dimensions_loop_spec]
  have hsnd : (text.zip glyphs).map Prod.snd = glyphs :=
    List.map_snd_zip _ _ (le_of_eq h.symm)
  have hA : (text.zip glyphs).foldl (fun m cg => max m cg.2.ascent) 0 =
      specMaxAscent glyphs := by
    rw [show (fun (m : Int) (cg : Char × Glyph) => max m cg.2.ascent) =
        (fun (m : Int) (cg : Char × Glyph) => max m (Prod.snd cg).ascent) from rfl,
      ← List.foldl_map Prod.snd (fun m g => max m (Glyph.ascent g)), hsnd,
      foldl_foldr_max _ _ _ le_rfl]
    exact max_eq_right (foldr_max_nonneg _ _)
  have hD : (text.zip glyphs).foldl (fun m cg => max m cg.2.descent) 0 =
      specMaxDescent glyphs := by
    rw [show (fun (m : Int) (cg : Char × Glyph) => max m cg.2.descent) =
        (fun (m : Int) (cg : Char × Glyph) => max m (Prod.snd cg).descent) from rfl,
      ← List.foldl_map Prod.snd (fun m g => max m (Glyph.descent g)), hsnd,
      foldl_foldr_max _ _ _ le_rfl]
    exact max_eq_right (foldr_max_nonneg _ _)
  rw [hA, hD, zero_add]

/-- **C1 witness.** The concrete scenario of the spec: glyphs "A"
(`advance = 10`, `width = 12`) and "V" (`advance = 8`, `width = 10`) with
kerning offset `-2` between them give total width
`max(10, 12) + max(8-2, 10-2) = 20`; the empty sequence yields
`(0, 0, 0)`. -/
theorem C1_witness :
    Font.text_dimensions faceAV ['A', 'V'] [glyphA, glyphV] = some (20, 10, 0) ∧
    Font.text_dimensions faceAV [] [] = some (0, 0, 0) := by
  constructor
  · rw [C1_text_dimensions faceAV ['A', 'V'] [glyphA, glyphV] rfl]; decide
  · rw [C1_text_dimensions faceAV [] [] rfl]; decide

/-! ## C10: vertical placement is in bounds at the natural height -/

theorem glyph_height_le_ascent_add_descent (g : Glyph) :
    g.height ≤ g.ascent + g.descent := by
  simp only [Glyph.ascent, Glyph.descent, max_def]
  split_ifs <;> omega

/-- **C10.** When rendering at the natural height, every glyph's vertical
placement is in bounds by construction: whenever `text_dimensions` (on the
glyphs rasterized for `text`, as `render_text` uses them) returns
`(w, H, b)`, each rasterized glyph `g` placed at `y = H - g.ascent - b`
satisfies `0 ≤ y` and `y + g.height ≤ H`. -/
theorem C10_render_vertical_bounds (f : FontFace) (text : List Char) (w H b : Int)
    (hdims : Font.text_dimensions f text (text.map f.rasterize) = some (w, H, b))
    (g : Glyph) (hg : g ∈ text.map f.rasterize) :
    0 ≤ H - g.ascent - b ∧ H - g.ascent - b + g.height ≤ H := by
  unfold Font.text_dimensions at hdims
  rw [if_pos (by simp), text_dimensions_loop_spec] at hdims
  have hsnd : (text.zip (text.map f.rasterize)).map Prod.snd = text.map f.rasterize :=
    List.map_snd_zip _ _ (by simp)
  obtain ⟨cg, hcg, hcg2⟩ := List.mem_map.1 (hsnd ▸ hg)
  have hpairs := hcg
  set pairs := text.zip (text.map f.rasterize) with hp
  have hA : g.ascent ≤ pairs.foldl (fun m cg => max m cg.2.ascent) 0 := by
    have := le_foldl_max_of_mem Glyph.ascent
      (pairs.map Prod.snd) 0 (List.mem_map_of_mem Prod.snd hpairs)
    rw [List.foldl_map] at this
    simpa [hcg2] using this
  have hD : g.descent ≤ pairs.foldl (fun m cg => max m cg.2.descent) 0 := by
    have := le_foldl_max_of_mem Glyph.descent
      (pairs.map Prod.snd) 0 (List.mem_map_of_mem Prod.snd hpairs)
    rw [List.foldl_map] at this
    simpa [hcg2] using this
  have hh := glyph_height_le_ascent_add_descent g
  have hinj := Option.some.inj hdims
  have hH : pairs.foldl (fun m cg => max m cg.2.ascent) 0 +
      pairs.foldl (fun m cg => max m cg.2.descent) 0 = H := congrArg (Prod.fst ∘ Prod.snd) hinj
  have hb : pairs.foldl (fun m cg => max m cg.2.descent) 0 = b := congrArg (Prod.snd ∘ Prod.snd) hinj
  constructor <;> omega

/-- **C10 witness.** The theorem applied to a one-character text whose
glyph has `ascent = 2`, `descent = 0`: dimensions are `(3, 2, 0)` and the
placement `y = 0` with `y + height = 1 ≤ 2`. -/
theorem C10_witness :
    (0 : Int) ≤ 2 - glyphWrap.ascent - 0 ∧
    2 - glyphWrap.ascent - 0 + glyphWrap.height ≤ 2 :=
  C10_render_vertical_bounds faceWrap ['a'] 3 2 0 (by decide) glyphWrap (by decide)

/-! ## C2: mono-bitmap unpacking -/

theorem unpackBits_length (bv rs : Nat) :
    ∀ (n : Nat) (data : List Bool), (unpackBits bv rs n data).length = data.length := by
  intro n
  induction n with
  | zero => intro data; rfl
  | succ n ih =>
    intro data
    show ((List.range (n+1)).foldl _ data).length = _
    rw [List.range_succ, List.foldl_append]
    simpa [unpackBits] using ih data

theorem unpackBits_getD (bv rs : Nat) :
    ∀ (n : Nat) (data : List Bool) (j : Nat),
      (unpackBits bv rs n data).getD j false =
        if rs ≤ j ∧ j < rs + n ∧ j < data.length
        then (bv &&& (1 <<< (7 - (j - rs))) != 0)
        else data.getD j false := by
  intro n
  induction n with
  | zero =>
    intro data j
    rw [show unpackBits bv rs 0 data = data from rfl, if_neg (by omega)]
  | succ n ih =>
    intro data j
    have hstep : unpackBits bv rs (n + 1) data =
        (unpackBits bv rs n data).set (rs + n) (bv &&& (1 <<< (7 - n)) != 0) := by
      unfold unpackBits
      rw [List.range_succ, List.foldl_append]
      rfl
    rw [hstep]
    by_cases hj : j = rs + n
    · subst hj
      by_cases hlen : rs + n < data.length
      · have hlen' : rs + n < (unpackBits bv rs n data).length := by
          rw [unpackBits_length]; exact hlen
        rw [List.getD_eq_getElem?_getD, List.getElem?_set_self hlen']
        rw [if_pos ⟨by omega, by omega, hlen⟩]
        simp
      · have hle : (unpackBits bv rs n data).length ≤ rs + n := by
          rw [unpackBits_length]; omega
        rw [List.set_eq_of_length_le hle, ih, if_neg (by omega), if_neg (by omega)]
    · rw [List.getD_eq_getElem?_getD, List.getElem?_set_ne (by omega),
        ← List.getD_eq_getElem?_getD, ih]
      split_ifs with h1 h2 h2 <;> first | rfl | omega

/-- The bit of the packed input that determines output pixel `x` of row
`y`: bit `7 - x % 8` of byte `y * pitch + x / 8`. -/
def rowBit (buffer : List Nat) (pitch y x : Nat) : Bool :=
  buffer.getD (y * pitch + x / 8) 0 &&& (1 <<< (7 - x % 8)) != 0

theorem unpackRowAux_step (buffer : List Nat) (width pitch y p : Nat) (data : List Bool) :
    unpackRowAux buffer width pitch y (p + 1) data =
      unpackBits (buffer.getD (y * pitch + p) 0) (y * width + p * 8)
        (min 8 (width - p * 8)) (unpackRowAux buffer width pitch y p data) := by
  unfold unpackRowAux
  rw [List.range_succ, List.foldl_append]
  rfl

theorem unpackRowAux_length (buffer : List Nat) (width pitch y : Nat) :
    ∀ (p : Nat) (data : List Bool),
      (unpackRowAux buffer width pitch y p data).length = data.length := by
  intro p
  induction p with
  | zero => intro data; rfl
  | succ p ih =>
    intro data
    rw [unpackRowAux_step, unpackBits_length, ih]

theorem unpackRowAux_getD (buffer : List Nat) (width pitch y : Nat) :
    ∀ (p : Nat) (data : List Bool) (j : Nat),
      (unpackRowAux buffer width pitch y p data).getD j false =
        if y * width ≤ j ∧ j < y * width + min width (8 * p) ∧ j < data.length
        then rowBit buffer pitch y (j - y * width)
        else data.getD j false := by
  intro p
  induction p with
  | zero =>
    intro data j
    rw [show unpackRowAux buffer width pitch y 0 data = data from rfl, if_neg (by omega)]
  | succ p ih =>
    intro data j
    rw [unpackRowAux_step, unpackBits_getD, unpackRowAux_length, ih]
    by_cases hnew : y * width + p * 8 ≤ j ∧ j < y * width + p * 8 + min 8 (width - p * 8) ∧
        j < data.length
    · rw [if_pos hnew, if_pos (by omega)]
      unfold rowBit
      have hdiv : (j - y * width) / 8 = p := by omega
      have hmod : (j - y * width) % 8 = j - (y * width + p * 8) := by omega
      rw [hdiv, hmod]
    · rw [if_neg hnew]
      split_ifs with h1 h2 h2 <;> first | rfl | omega

theorem unpackRowsAux_length (buffer : List Nat) (width pitch : Nat) :
    ∀ (r : Nat) (data : List Bool),
      (unpackRowsAux buffer width pitch r data).length = data.length := by
  intro r
  induction r with
  | zero => intro data; rfl
  | succ r ih =>
    intro data
    show ((List.range (r+1)).foldl _ data).length = _
    rw [List.range_succ, List.foldl_append]
    simp only [List.foldl_cons, List.foldl_nil]
    rw [show ∀ d, unpackRow buffer width pitch r d = unpackRowAux buffer width pitch r pitch d
        from fun _ => rfl]
    rw [unpackRowAux_length]
    exact ih data

theorem unpackRowsAux_getD (buffer : List Nat) (width pitch : Nat)
    (h8 : width ≤ 8 * pitch) :
    ∀ (r : Nat) (data : List Bool) (j : Nat),
      (unpackRowsAux buffer width pitch r data).getD j false =
        if j < r * width ∧ j < data.length
        then rowBit buffer pitch (j / width) (j % width)
        else data.getD j false := by
  intro r
  induction r with
  | zero =>
    intro data j
    rw [show unpackRowsAux buffer width pitch 0 data = data from rfl, if_neg (by omega)]
  | succ r ih =>
    intro data j
    have hstep : unpackRowsAux buffer width pitch (r + 1) data =
        unpackRowAux buffer width pitch r pitch (unpackRowsAux buffer width pitch r data) := by
      unfold unpackRowsAux
      rw [List.range_succ, List.foldl_append]
      rfl
    rw [hstep, unpackRowAux_getD, unpackRowsAux_length, ih]
    have hminw : min width (8 * pitch) = width := by omega
    rw [hminw]
    have hsucc : (r + 1) * width = r * width + width := by ring
    rw [hsucc]
    by_cases hnew : r * width ≤ j ∧ j < r * width + width ∧ j < data.length
    · have hwpos : 0 < width := by omega
      have hdiv : j / width = r := by
        conv_lhs => rw [show j = width * r + (j - r * width) from by rw [Nat.mul_comm]; omega]
        rw [Nat.mul_add_div hwpos, Nat.div_eq_of_lt (by omega)]
        omega
      have hmod : j % width = j - r * width := by
        conv_lhs => rw [show j = width * r + (j - r * width) from by rw [Nat.mul_comm]; omega]
        rw [Nat.mul_add_mod]
        exact Nat.mod_eq_of_lt (by omega)
      rw [if_pos hnew, if_pos (by omega), hdiv, hmod]
    · rw [if_neg hnew]
      split_ifs with h1 h2 h2 <;> first | rfl | omega

theorem and_shift_ne_zero_eq_testBit (bv k : Nat) :
    (bv &&& (1 <<< k) != 0) = bv.testBit k := by
  rw [Nat.one_shiftLeft]
  cases h : bv.testBit k with
  | false =>
    have hz : bv &&& 2 ^ k = 0 := by
      apply Nat.eq_of_testBit_eq
      intro i
      rw [Nat.testBit_and, Nat.zero_testBit, Nat.testBit_two_pow]
      by_cases hik : k = i
      · subst hik; simp [h]
      · simp [hik]
    simp [hz]
  | true =>
    have htb : (bv &&& 2 ^ k).testBit k = true := by
      rw [Nat.testBit_and, h, Nat.testBit_two_pow]
      simp
    have hne : bv &&& 2 ^ k ≠ 0 := by
      intro h0
      rw [h0, Nat.zero_testBit] at htb
      exact Bool.false_ne_true htb
    simp [hne]

/-- **C2.** For every packed monochrome bitmap (row-major, `pitch` bytes
per row with `pitch*8 ≥ width`, buffer of `rows * pitch` bytes),
`unpack_mono_bitmap` returns a flat boolean sequence of exactly
`rows * width` elements in which pixel `(x, y)` is on iff bit
`7 - x % 8` of byte `y * pitch + x / 8` of the input is set; each row
reads exactly `width` pixels and padding bits beyond the width are
ignored. -/
theorem C2_unpack_mono_bitmap (buffer : List Nat) (rows width pitch : Nat)
    (h8 : width ≤ 8 * pitch) (hbuf : buffer.length = rows * pitch) :
    (unpack_mono_bitmap buffer rows width pitch).length = rows * width ∧
    ∀ x y, x < width → y < rows →
      (unpack_mono_bitmap buffer rows width pitch).getD (y * width + x) false =
        (buffer.getD (y * pitch + x / 8) 0).testBit (7 - x % 8) := by
  constructor
  · unfold unpack_mono_bitmap
    rw [unpackRowsAux_length, List.length_replicate]
  · intro x y hx hy
    unfold unpack_mono_bitmap
    rw [unpackRowsAux_getD buffer width pitch h8]
    have hwpos : 0 < width := by omega
    have hj : y * width + x < rows * width := by
      have h1 : (y + 1) * width = y * width + width := by ring
      calc y * width + x < (y + 1) * width := by omega
        _ ≤ rows * width := mul_le_mul_right' (by omega) width
    have hdiv : (y * width + x) / width = y := by
      conv_lhs => rw [show y * width + x = width * y + x from by rw [Nat.mul_comm]]
      rw [Nat.mul_add_div hwpos, Nat.div_eq_of_lt hx]
      omega
    have hmod : (y * width + x) % width = x := by
      conv_lhs => rw [show y * width + x = width * y + x from by rw [Nat.mul_comm]]
      rw [Nat.mul_add_mod]
      exact Nat.mod_eq_of_lt hx
    rw [if_pos ⟨hj, by rw [List.length_replicate]; exact hj⟩, hdiv, hmod]
    unfold rowBit
    exact and_shift_ne_zero_eq_testBit _ _

/-- **C2 witness.** The concrete scenario of the spec: an 8×8 bitmap with
`pitch = 1` and every byte `0xFF` unpacks to 64 elements (by the theorem)
that are all `true` (by evaluation), and the theorem evaluates pixel
`(5, 3)` to bit 2 of byte 3. -/
theorem C2_witness :
    (unpack_mono_bitmap (List.replicate 8 255) 8 8 1).length = 8 * 8 ∧
    (unpack_mono_bitmap (List.replicate 8 255) 8 8 1).getD (3 * 8 + 5) false =
      ((List.replicate 8 255).getD (3 * 1 + 5 / 8) 0).testBit (7 - 5 % 8) ∧
    unpack_mono_bitmap (List.replicate 8 255) 8 8 1 = List.replicate 64 true :=
  ⟨(C2_unpack_mono_bitmap (List.replicate 8 255) 8 8 1 (by decide) (by decide)).1,
   (C2_unpack_mono_bitmap (List.replicate 8 255) 8 8 1 (by decide) (by decide)).2
     5 3 (by decide) (by decide),
   by decide⟩

/-! ## C6: rendering at a too-small target height -/

/-- **C6 counterexample.** The claim says a too-small `target_height` (a
negative computed `y`) makes `render` fail with an `OutOfBounds` error,
never silently wrapping.  Rendering one `faceWrap` character at
`target_height = 1` computes `y = 1 - ascent - baseline = 1 - 2 - 0 = -1`,
yet the render *succeeds*: the blit's flattened start index `-3` is
interpreted by Python's negative-index slice semantics, which wraps to the
start of the 3-cell buffer, and the pixel is silently written at row 0. -/
theorem C6_counterexample :
    Font.render_text faceWrap ['a'] (some 1) = some ⟨3, 1, [true, false, false]⟩ ∧
    (1 : Int) - glyphWrap.ascent - 0 = -1 := by
  decide

/-- **C6 amended.** A too-small `target_height` is not detected: there is
no `OutOfBounds` error in the code.  Depending on how the negative
flattened indices fall, the blit either silently wraps the write (the
`faceWrap` render succeeds with the pixel misplaced at row 0, whereas at
the natural height 2 the same pixel lands in the correct row) or raises
numpy's generic broadcast-shape error (the `faceErr` render, whose slice
resolves to an empty range mismatching the 2-pixel source row). -/
theorem C6_amended :
    Font.render_text faceWrap ['a'] (some 1) = some ⟨3, 1, [true, false, false]⟩ ∧
    Font.render_text faceWrap ['a'] none =
      some ⟨3, 2, [true, false, false, false, false, false]⟩ ∧
    Font.render_text faceErr ['a'] (some 1) = none := by
  decide

/-! ## C5: OR-blit characterisation and idempotence -/

theorem pyIndex_natCast (len n : Nat) (h : n ≤ len) : pyIndex len (n : Int) = n := by
  unfold pyIndex
  rw [if_neg (not_lt.2 (Int.natCast_nonneg n)), Int.toNat_ofNat]
  exact Nat.min_eq_left h

/-- The in-bounds effect of one row assignment
`dst[i : i + len(src)] |= src`: the elements `i ≤ j < i + len(src)` are
OR-combined with `src`, the rest are unchanged. -/
def orWrite (dst : List Bool) (i : Nat) (src : List Bool) : List Bool :=
  dst.take i ++ List.zipWith or ((dst.drop i).take src.length) src ++
    dst.drop (i + src.length)

theorem sliceOrAssign_inBounds (dst src : List Bool) (i n : Nat)
    (hn : src.length = n) (h : i + n ≤ dst.length) :
    sliceOrAssign dst (i : Int) ((i : Int) + (n : Int)) src = some (orWrite dst i src) := by
  subst hn
  simp only [sliceOrAssign]
  rw [show ((i : Int) + (src.length : Int)) = (((i + src.length : Nat)) : Int) from by
    push_cast; ring]
  rw [pyIndex_natCast dst.length (i + src.length) h, pyIndex_natCast dst.length i (by omega)]
  rw [if_pos (by omega)]
  unfold orWrite
  have hk : i + src.length - i = src.length := by omega
  rw [hk]

theorem orWrite_length (dst src : List Bool) (i n : Nat)
    (hn : src.length = n) (h : i + n ≤ dst.length) :
    (orWrite dst i src).length = dst.length := by
  subst hn
  simp only [orWrite, List.length_append, List.length_take, List.length_zipWith,
    List.length_drop]
  omega

theorem orWrite_getD (dst src : List Bool) (i n : Nat)
    (hn : src.length = n) (h : i + n ≤ dst.length) (j : Nat) :
    (orWrite dst i src).getD j false =
      if i ≤ j ∧ j < i + n
      then dst.getD j false || src.getD (j - i) false
      else dst.getD j false := by
  subst hn
  unfold orWrite
  rw [List.getD_eq_getElem?_getD, List.getElem?_append, List.getElem?_append]
  simp only [List.length_append, List.length_take, List.length_zipWith, List.length_drop]
  have hti : min i dst.length = i := by omega
  have hmin : min (min src.length (dst.length - i)) src.length = src.length := by omega
  rw [hti, hmin]
  by_cases h1 : j < i
  · rw [if_pos (show j < i + src.length by omega), if_pos h1,
      List.getElem?_take_of_lt h1, ← List.getD_eq_getElem?_getD, if_neg (by omega)]
  · by_cases h2 : j < i + src.length
    · rw [if_pos h2, if_neg h1, List.getElem?_zipWith,
        List.getElem?_take_of_lt (show j - i < src.length by omega), List.getElem?_drop]
      have hji : i + (j - i) = j := by omega
      rw [hji]
      have hjd : j < dst.length := by omega
      have hjs : j - i < src.length := by omega
      rw [List.getElem?_eq_getElem hjd, List.getElem?_eq_getElem hjs, if_pos ⟨by omega, h2⟩,
        List.getD_eq_getElem?_getD, List.getD_eq_getElem?_getD,
        List.getElem?_eq_getElem hjd, List.getElem?_eq_getElem hjs]
      rfl
    · rw [if_neg h2, List.getElem?_drop]
      have hji : i + src.length + (j - (i + src.length)) = j := by omega
      rw [hji, if_neg (by omega), ← List.getD_eq_getElem?_getD]

theorem pySlice_inBounds (l : List Bool) (a n : Nat) (h : a + n ≤ l.length) :
    pySlice l (a : Int) ((a : Int) + (n : Int)) = (l.drop a).take n := by
  simp only [pySlice]
  rw [show ((a : Int) + (n : Int)) = (((a + n : Nat)) : Int) from by push_cast; ring]
  rw [pyIndex_natCast l.length (a + n) h, pyIndex_natCast l.length a (by omega)]
  congr 1
  omega

theorem drop_take_length (l : List Bool) (a n : Nat) (h : a + n ≤ l.length) :
    ((l.drop a).take n).length = n := by
  rw [List.length_take, List.length_drop]
  omega

theorem drop_take_getD (l : List Bool) (a n t : Nat) (ht : t < n) :
    ((l.drop a).take n).getD t false = l.getD (a + t) false := by
  rw [List.getD_eq_getElem?_getD, List.getD_eq_getElem?_getD,
    List.getElem?_take_of_lt ht, List.getElem?_drop]

theorem rowSegment_iff (W x sw a py px : Nat) (hpx : px < W) (hxw : x + sw ≤ W) :
    (a * W + x ≤ py * W + px ∧ py * W + px < a * W + x + sw) ↔
      (py = a ∧ x ≤ px ∧ px < x + sw) := by
  constructor
  · rintro ⟨h1, h2⟩
    have hpy : py = a := by
      by_contra hne
      rcases Nat.lt_or_ge py a with hlt | hge
      · have hmul : (py + 1) * W ≤ a * W := mul_le_mul_right' (by omega) W
        have he : (py + 1) * W = py * W + W := by ring
        omega
      · have hgt : a < py := by omega
        have hmul : (a + 1) * W ≤ py * W := mul_le_mul_right' (by omega) W
        have he : (a + 1) * W = a * W + W := by ring
        omega
    subst hpy
    omega
  · rintro ⟨rfl, h1, h2⟩
    omega

theorem bitbltLoop_spec (W Hn sw sh x y : Nat) (S : List Bool)
    (hS : S.length = sw * sh) (hx : x + sw ≤ W) :
    ∀ (rows k : Nat) (P : List Bool), P.length = W * Hn →
      k + rows ≤ sh → y + k + rows ≤ Hn →
      ∃ Q, bitbltLoop (W : Int) (sw : Int) S rows ((k * sw : Nat) : Int)
          (((y + k) * W + x : Nat) : Int) P = some Q ∧
        Q.length = P.length ∧
        ∀ px py, px < W → py < Hn →
          Q.getD (py * W + px) false =
            if y + k ≤ py ∧ py < y + k + rows ∧ x ≤ px ∧ px < x + sw
            then P.getD (py * W + px) false || S.getD ((py - y) * sw + (px - x)) false
            else P.getD (py * W + px) false := by
  intro rows
  induction rows with
  | zero =>
    intro k P hP hk hyk
    exact ⟨P, rfl, rfl, fun px py hpx hpy => by rw [if_neg (by omega)]⟩
  | succ rows ih =>
    intro k P hP hk hyk
    have hS1 : k * sw + sw ≤ S.length := by
      have h2 : (k + 1) * sw = k * sw + sw := by ring
      have h3 : (k + 1) * sw ≤ sh * sw := mul_le_mul_right' (by omega) sw
      have h4 : sh * sw = sw * sh := Nat.mul_comm _ _
      omega
    have hrow : pySlice S ((k * sw : Nat) : Int) (((k * sw : Nat) : Int) + (sw : Int)) =
        (S.drop (k * sw)).take sw := pySlice_inBounds S (k * sw) sw hS1
    have hrowlen : ((S.drop (k * sw)).take sw).length = sw := drop_take_length S (k * sw) sw hS1
    have hdst1 : (y + k) * W + x + sw ≤ P.length := by
      have h2 : (y + k + 1) * W = (y + k) * W + W := by ring
      have h3 : (y + k + 1) * W ≤ Hn * W := mul_le_mul_right' (by omega) W
      have h4 : Hn * W = W * Hn := Nat.mul_comm _ _
      omega
    have hassign := sliceOrAssign_inBounds P ((S.drop (k * sw)).take sw)
      ((y + k) * W + x) sw hrowlen (by omega)
    have hstep : bitbltLoop (W : Int) (sw : Int) S (rows + 1) ((k * sw : Nat) : Int)
        (((y + k) * W + x : Nat) : Int) P =
        bitbltLoop (W : Int) (sw : Int) S rows (((k * sw : Nat) : Int) + (sw : Int))
          ((((y + k) * W + x : Nat) : Int) + ((W : Int) - (sw : Int)) + (sw : Int))
          (orWrite P ((y + k) * W + x) ((S.drop (k * sw)).take sw)) := by
      have hdef : bitbltLoop (W : Int) (sw : Int) S (rows + 1) ((k * sw : Nat) : Int)
          (((y + k) * W + x : Nat) : Int) P =
          match sliceOrAssign P (((y + k) * W + x : Nat) : Int)
              ((((y + k) * W + x : Nat) : Int) + (sw : Int))
              (pySlice S ((k * sw : Nat) : Int) (((k * sw : Nat) : Int) + (sw : Int))) with
          | none => none
          | some pixels' =>
            bitbltLoop (W : Int) (sw : Int) S rows (((k * sw : Nat) : Int) + (sw : Int))
              ((((y + k) * W + x : Nat) : Int) + ((W : Int) - (sw : Int)) + (sw : Int))
              pixels' := rfl
      rw [hdef, hrow, hassign]
    have hc1 : ((k * sw : Nat) : Int) + (sw : Int) = (((k + 1) * sw : Nat) : Int) := by
      push_cast; ring
    have hc2 : (((y + k) * W + x : Nat) : Int) + ((W : Int) - (sw : Int)) + (sw : Int) =
        (((y + (k + 1)) * W + x : Nat) : Int) := by
      push_cast; ring
    rw [hstep, hc1, hc2]
    have hP'len : (orWrite P ((y + k) * W + x) ((S.drop (k * sw)).take sw)).length =
        P.length := orWrite_length P _ _ sw hrowlen (by omega)
    obtain ⟨Q, hQ, hQlen, hQc⟩ := ih (k + 1)
      (orWrite P ((y + k) * W + x) ((S.drop (k * sw)).take sw))
      (by rw [hP'len, hP]) (by omega) (by omega)
    refine ⟨Q, hQ, by rw [hQlen, hP'len], fun px py hpx hpy => ?_⟩
    rw [hQc px py hpx hpy]
    have how := orWrite_getD P ((S.drop (k * sw)).take sw) ((y + k) * W + x) sw
      hrowlen (by omega) (py * W + px)
    have hseg := rowSegment_iff W x sw (y + k) py px hpx hx
    by_cases hnew : py = y + k ∧ x ≤ px ∧ px < x + sw
    · rw [if_neg (by omega), how, if_pos (hseg.2 hnew), if_pos (by omega)]
      have ht : py * W + px - ((y + k) * W + x) = px - x := by
        obtain ⟨hpy', hx1, hx2⟩ := hnew
        subst hpy'
        omega
      rw [ht, drop_take_getD S (k * sw) sw (px - x) (by omega)]
      have hk2 : (py - y) * sw = k * sw := by
        obtain ⟨hpy', _, _⟩ := hnew
        subst hpy'
        have he : y + k - y = k := by omega
        rw [he]
      rw [hk2]
    · rw [how, if_neg (fun hc => hnew (hseg.1 hc))]
      split_ifs with h1 h2 h2 <;> first | rfl | omega

theorem list_eq_of_getD_eq (l1 l2 : List Bool) (hlen : l1.length = l2.length)
    (h : ∀ n, l1.getD n false = l2.getD n false) : l1 = l2 := by
  apply List.ext_getElem?
  intro n
  by_cases hn : n < l1.length
  · rw [List.getElem?_eq_getElem hn, List.getElem?_eq_getElem (hlen ▸ hn)]
    have hh := h n
    rw [List.getD_eq_getElem?_getD, List.getD_eq_getElem?_getD,
      List.getElem?_eq_getElem hn, List.getElem?_eq_getElem (hlen ▸ hn)] at hh
    simpa using hh
  · rw [List.getElem?_eq_none (by omega), List.getElem?_eq_none (by omega)]

/-- **C5.** For every in-bounds blit, `bitblt` sets destination pixel
`(x + sx, y + sy)` to the OR of its old value and source pixel
`(sx, sy)`, leaves every other pixel unchanged (so a set pixel is never
cleared), and blitting the same source at the same position twice yields
the same canvas as blitting it once (OR-blit idempotence). -/
theorem C5_bitblt_or (W Hn sw sh x y : Nat) (P S : List Bool)
    (hP : P.length = W * Hn) (hS : S.length = sw * sh)
    (hx : x + sw ≤ W) (hy : y + sh ≤ Hn) :
    ∃ out, Bitmap.bitblt ⟨(W : Int), (Hn : Int), P⟩ ⟨(sw : Int), (sh : Int), S⟩
        (x : Int) (y : Int) = some out ∧
      out.width = (W : Int) ∧ out.height = (Hn : Int) ∧ out.pixels.length = P.length ∧
      (∀ sx sy, sx < sw → sy < sh →
        out.pixels.getD ((y + sy) * W + (x + sx)) false =
          (P.getD ((y + sy) * W + (x + sx)) false || S.getD (sy * sw + sx) false)) ∧
      (∀ px py, px < W → py < Hn → ¬(x ≤ px ∧ px < x + sw ∧ y ≤ py ∧ py < y + sh) →
        out.pixels.getD (py * W + px) false = P.getD (py * W + px) false) ∧
      Bitmap.bitblt out ⟨(sw : Int), (sh : Int), S⟩ (x : Int) (y : Int) = some out := by
  obtain ⟨Q, hQ, hQlen, hQc⟩ := bitbltLoop_spec W Hn sw sh x y S hS hx sh 0 P hP
    (by omega) (by omega)
  have bitblt_reduce : ∀ (R : List Bool),
      bitbltLoop (W : Int) (sw : Int) S sh ((0 * sw : Nat) : Int)
        (((y + 0) * W + x : Nat) : Int) R = some Q →
      Bitmap.bitblt ⟨(W : Int), (Hn : Int), R⟩ ⟨(sw : Int), (sh : Int), S⟩
        (x : Int) (y : Int) = some ⟨(W : Int), (Hn : Int), Q⟩ := by
    intro R hR
    have hR' : bitbltLoop (W : Int) (sw : Int) S (((sh : Int)).toNat) 0
        ((y : Int) * (W : Int) + (x : Int)) R = some Q := by
      rw [Int.toNat_ofNat,
        show (0 : Int) = ((0 * sw : Nat) : Int) from by simp,
        show ((y : Int) * (W : Int) + (x : Int)) = (((y + 0) * W + x : Nat) : Int) from by
          push_cast; ring]
      exact hR
    show (match bitbltLoop (W : Int) (sw : Int) S (((sh : Int)).toNat) 0
        ((y : Int) * (W : Int) + (x : Int)) R with
      | none => none
      | some px => some (⟨(W : Int), (Hn : Int), px⟩ : Bitmap)) = _
    rw [hR']
  have hblit := bitblt_reduce P hQ
  have hQWH : Q.length = W * Hn := hQlen.trans hP
  obtain ⟨Q2, hQ2, hQ2len, hQ2c⟩ := bitbltLoop_spec W Hn sw sh x y S hS hx sh 0 Q hQWH
    (by omega) (by omega)
  have hQ2eq : Q2 = Q := by
    apply list_eq_of_getD_eq _ _ (by omega)
    intro n
    by_cases hn : n < W * Hn
    · have hW : 0 < W := by
        rcases Nat.eq_zero_or_pos W with h0 | h0
        · subst h0; simp at hn
        · exact h0
      have hpx : n % W < W := Nat.mod_lt _ hW
      have hpy : n / W < Hn := by
        rw [Nat.div_lt_iff_lt_mul hW]
        have hcm : W * Hn = Hn * W := Nat.mul_comm _ _
        omega
      have hdecomp : (n / W) * W + n % W = n := by
        have hdm := Nat.div_add_mod n W
        have hcm : (n / W) * W = W * (n / W) := Nat.mul_comm _ _
        omega
      rw [← hdecomp, hQ2c (n % W) (n / W) hpx hpy, hQc (n % W) (n / W) hpx hpy]
      split_ifs with hcond
      · rw [Bool.or_assoc, Bool.or_self]
      · rfl
    · rw [List.getD_eq_getElem?_getD, List.getD_eq_getElem?_getD,
        List.getElem?_eq_none (by omega), List.getElem?_eq_none (by omega)]
  refine ⟨⟨(W : Int), (Hn : Int), Q⟩, hblit, rfl, rfl, hQlen, ?_, ?_, ?_⟩
  · intro sx sy hsx hsy
    have h1 := hQc (x + sx) (y + sy) (by omega) (by omega)
    rw [h1, if_pos (by omega)]
    have e1 : y + sy - y = sy := by omega
    have e2 : x + sx - x = sx := by omega
    rw [e1, e2]
  · intro px py hpx hpy hout
    rw [hQc px py hpx hpy, if_neg (by omega)]
  · have := bitblt_reduce Q (hQ2eq ▸ hQ2)
    exact this

/-- **C5 witness.** A concrete in-bounds blit: a 2×2 source with pixels on
its main diagonal blitted at `(1, 1)` into an all-off 4×3 canvas sets
exactly the two diagonal pixels, and blitting it again at the same
position returns the identical canvas. -/
theorem C5_witness :
    Bitmap.bitblt ⟨((4 : Nat) : Int), ((3 : Nat) : Int), List.replicate 12 false⟩
        ⟨((2 : Nat) : Int), ((2 : Nat) : Int), [true, false, false, true]⟩
        ((1 : Nat) : Int) ((1 : Nat) : Int) =
      some ⟨4, 3, [false, false, false, false,
                   false, true, false, false,
                   false, false, true, false]⟩ ∧
    Bitmap.bitblt ⟨(4 : Int), (3 : Int), [false, false, false, false,
                   false, true, false, false,
                   false, false, true, false]⟩
        ⟨((2 : Nat) : Int), ((2 : Nat) : Int), [true, false, false, true]⟩
        ((1 : Nat) : Int) ((1 : Nat) : Int) =
      some ⟨4, 3, [false, false, false, false,
                   false, true, false, false,
                   false, false, true, false]⟩ := by
  obtain ⟨out, h1, _, _, _, _, _, h7⟩ := C5_bitblt_or 4 3 2 2 1 1
    (List.replicate 12 false) [true, false, false, true]
    (by decide) (by decide) (by decide) (by decide)
  have hev : Bitmap.bitblt ⟨((4 : Nat) : Int), ((3 : Nat) : Int), List.replicate 12 false⟩
      ⟨((2 : Nat) : Int), ((2 : Nat) : Int), [true, false, false, true]⟩
      ((1 : Nat) : Int) ((1 : Nat) : Int) =
      some ⟨4, 3, [false, false, false, false,
                   false, true, false, false,
                   false, false, true, false]⟩ := by decide
  have hout : out = ⟨4, 3, [false, false, false, false,
                   false, true, false, false,
                   false, false, true, false]⟩ := Option.some.inj (h1.symm.trans hev)
  subst hout
  exact ⟨hev, h7⟩

end Vitex
